import Mathlib

/-!
Verification of the dynamic-programming solver family of the repository
(`src/DP/Algorithms/policy_evaluation.py`, `policy_iteration.py`,
`value_iteration.py`) and of the two concrete environments
(`src/DP/Env/Knapsack.py`, `src/DP/Env/Inventory.py`).

The embedding is shallow and executable:
* Python floats become exact rationals (`ℚ`); the algorithms only add,
  multiply and compare, so the control flow is faithfully reproduced.
* The value dictionary `V` becomes a total function `S → ℚ` updated
  pointwise (`upd`).  The Python dictionary raises `KeyError` on a state
  outside `state_space()`; theorems that depend on lookups staying inside
  the table carry an explicit closure hypothesis instead.
* The unbounded `while True:` convergence loops become fueled recursions
  returning `Option`; `none` means the modelled run did not finish within
  the given fuel (or hit a modelled exception), `some` is a normal return.
* `print` calls are modelled, where a claim needs them, by an explicit
  event trace (`PEEvent`), built exactly under the conditions guarding the
  corresponding `print`.
-/

namespace MaterialReforma

/-- Deterministic environment interface that the three solvers consume by
duck typing (`state_space()`, `is_terminal(s)`, `sim_step(s, a)`,
`actions(s)`); see the docstrings of the three solver files. -/
structure DetEnv (S A : Type) where
  state_space : List S
  is_terminal : S → Bool
  sim_step : S → A → S × ℚ
  actions : S → List A

variable {S A : Type}

/-- Pointwise table update, modelling the dictionary assignment `V[s] = x`. -/
def upd [DecidableEq S] (V : S → ℚ) (s : S) (x : ℚ) : S → ℚ :=
  fun t => if t = s then x else V t

/-- One-step backup value `r + gamma * V[next_s]` where
`(next_s, r) = env.sim_step(s, a)`.  All three solvers compute exactly this
expression (value iteration's value phase calls `sim_step` twice on the same
arguments, which is the same value since `sim_step` is pure). -/
def qval (env : DetEnv S A) (gamma : ℚ) (V : S → ℚ) (s : S) (a : A) : ℚ :=
  (env.sim_step s a).2 + gamma * V (env.sim_step s a).1

/-- One in-place Gauss-Seidel sweep of `policy_evaluation` (the `for s in
env.state_space():` body): terminal states are skipped, every other state is
rebound to `r + gamma * V[next_s]` using the current table, and `delta`
accumulates `max(delta, abs(v - new_v))`. -/
def evalSweep [DecidableEq S] (env : DetEnv S A) (pol : S → A) (gamma : ℚ) :
    List S → (S → ℚ) → ℚ → (S → ℚ) × ℚ
  | [], V, delta => (V, delta)
  | s :: rest, V, delta =>
    if env.is_terminal s then evalSweep env pol gamma rest V delta
    else
      let newv := qval env gamma V s (pol s)
      evalSweep env pol gamma rest (upd V s newv) (max delta |V s - newv|)

/-- The `while True:` loop of `policy_evaluation`, fueled.  Each pass runs a
full sweep with `delta = 0` and stops as soon as `delta < theta`. -/
def peLoop [DecidableEq S] (env : DetEnv S A) (pol : S → A) (gamma theta : ℚ) :
    ℕ → (S → ℚ) → Option (S → ℚ)
  | 0, _ => none
  | fuel + 1, V =>
    let r := evalSweep env pol gamma env.state_space V 0
    if r.2 < theta then some r.1 else peLoop env pol gamma theta fuel r.1

/-- `policy_evaluation(env, policy, gamma, theta)`: starts from
`V = {s: 0.0 for s in env.state_space()}` and sweeps until `delta < theta`.
The function returns `V` only, exactly as the source does. -/
def policy_evaluation [DecidableEq S] (env : DetEnv S A) (pol : S → A)
    (gamma theta : ℚ) (fuel : ℕ) : Option (S → ℚ) :=
  peLoop env pol gamma theta fuel (fun _ => 0)

/-- Left fold computing the running maximum, the semantics of Python's
`max(...)` on a nonempty sequence seeded with its first element. -/
def maxAux (x : ℚ) : List ℚ → ℚ
  | [] => x
  | y :: ys => maxAux (max x y) ys

/-- Python `max` over a sequence of rationals: `none` models the
`ValueError: max() arg is an empty sequence` raised on an empty sequence. -/
def pymax : List ℚ → Option ℚ
  | [] => none
  | x :: xs => some (maxAux x xs)

/-- One sweep of value iteration's value phase: `best_q = max(r + gamma *
V[next_s] for a in env.actions(s))` followed by `V[s] = best_q`; an empty
action list makes the `max` raise, which aborts the whole run (`none`). -/
def viSweep [DecidableEq S] (env : DetEnv S A) (gamma : ℚ) :
    List S → (S → ℚ) → ℚ → Option ((S → ℚ) × ℚ)
  | [], V, delta => some (V, delta)
  | s :: rest, V, delta =>
    if env.is_terminal s then viSweep env gamma rest V delta
    else
      match pymax ((env.actions s).map (qval env gamma V s)) with
      | none => none
      | some bq => viSweep env gamma rest (upd V s bq) (max delta |V s - bq|)

/-- The fueled `while True:` loop of value iteration's value phase. -/
def viLoop [DecidableEq S] (env : DetEnv S A) (gamma theta : ℚ) :
    ℕ → (S → ℚ) → Option (S → ℚ)
  | 0, _ => none
  | fuel + 1, V =>
    match viSweep env gamma env.state_space V 0 with
    | none => none
    | some r => if r.2 < theta then some r.1 else viLoop env gamma theta fuel r.1

/-- The argmax accumulator loop shared verbatim by policy iteration's
improvement step and value iteration's policy-derivation pass:
`if q_sa > best_q: best_q, best_a = q_sa, a` (strict comparison, so a later
candidate that merely ties never replaces the incumbent). -/
def greedyGo (q : A → ℚ) : List A → A → ℚ → A × ℚ
  | [], ba, bq => (ba, bq)
  | a :: rest, ba, bq =>
    if q a > bq then greedyGo q rest a (q a) else greedyGo q rest ba bq

/-- The full `best_a` computation: `best_q` starts at `-float('inf')` and
`best_a` at `None`, so the first action always becomes the incumbent (every
finite `q_sa` exceeds `-inf`) and an empty action list leaves `best_a =
None`, which both sources then store as the policy entry. -/
def greedy_action (env : DetEnv S A) (gamma : ℚ) (V : S → ℚ) (s : S) :
    Option A :=
  match env.actions s with
  | [] => none
  | a :: rest => some (greedyGo (qval env gamma V s) rest a (qval env gamma V s a)).1

/-- `value_iteration(env, gamma, theta)`: the value phase followed by the
policy-derivation pass `policy[s] = best_a` over the non-terminal states of
`env.state_space()` (terminal states get no entry, modelled as `none`). -/
def value_iteration [DecidableEq S] (env : DetEnv S A) (gamma theta : ℚ)
    (fuel : ℕ) : Option ((S → Option A) × (S → ℚ)) :=
  (viLoop env gamma theta fuel (fun _ => 0)).map fun V =>
    (fun s =>
      if s ∈ env.state_space ∧ env.is_terminal s = false then
        greedy_action env gamma V s
      else none,
     V)

/-- The improvement pass of `policy_iteration`: every non-terminal state of
`state_space()` is rebound to `best_a` (its greedy action w.r.t. `V`); other
dictionary entries are untouched.  `getD (pol s)` is never reached when the
greedy action exists, which `piLoop` checks via `piGuard`. -/
def piImprove [DecidableEq S] (env : DetEnv S A) (gamma : ℚ) (V : S → ℚ)
    (pol : S → A) : S → A := fun s =>
  if s ∈ env.state_space ∧ env.is_terminal s = false then
    (greedy_action env gamma V s).getD (pol s)
  else pol s

/-- True when every non-terminal state has a greedy action, i.e. a nonempty
action list.  The source stores `best_a = None` verbatim otherwise; such
runs leave the typed policy model (see the C5 analysis). -/
def piGuard [DecidableEq S] (env : DetEnv S A) (gamma : ℚ) (V : S → ℚ) : Bool :=
  env.state_space.all
    (fun s => env.is_terminal s || (greedy_action env gamma V s).isSome)

/-- The `policy_stable` flag: no non-terminal entry changed in the
improvement pass (`best_a != old_a` for no state). -/
def piStable [DecidableEq S] [DecidableEq A] (env : DetEnv S A)
    (pol pol2 : S → A) : Bool :=
  env.state_space.all (fun s => env.is_terminal s || decide (pol2 s = pol s))

/-- The outer loop of `policy_iteration`, fueled.  Each round evaluates the
current policy, then rebinds every non-terminal state to its greedy action
and stops when no entry changed. -/
def piLoop [DecidableEq S] [DecidableEq A] (env : DetEnv S A)
    (gamma theta : ℚ) (peFuel : ℕ) : ℕ → (S → A) → Option ((S → A) × (S → ℚ))
  | 0, _ => none
  | fuel + 1, pol =>
    match policy_evaluation env pol gamma theta peFuel with
    | none => none
    | some V =>
      if piGuard env gamma V then
        if piStable env pol (piImprove env gamma V pol) then
          some (piImprove env gamma V pol, V)
        else piLoop env gamma theta peFuel fuel (piImprove env gamma V pol)
      else none

/-- `policy_iteration(env, policy, gamma, theta)`: alternate evaluation and
greedy improvement until the policy is stable; returns the (in Python:
in-place mutated) policy together with the last evaluation. -/
def policy_iteration [DecidableEq S] [DecidableEq A] (env : DetEnv S A)
    (pol : S → A) (gamma theta : ℚ) (outerFuel peFuel : ℕ) :
    Option ((S → A) × (S → ℚ)) :=
  piLoop env gamma theta peFuel outerFuel pol

/-- Progress lines printed by `policy_evaluation` when `report` is true:
the per-pass header `Iteración {cnt}` and the per-state backup line (printed
only when the value actually changed). -/
inductive PEEvent (S A : Type) where
  | sweepHeader (cnt : ℕ)
  | backupLine (s : S) (a : A) (nexts : S) (r v : ℚ)

/-- The sweep of `policy_evaluation` with its trace: identical value and
delta computation as `evalSweep`, plus the `report and v != new_v` guarded
print, recorded as a `backupLine` event. -/
def evalSweepRep [DecidableEq S] (env : DetEnv S A) (pol : S → A)
    (gamma : ℚ) (report : Bool) :
    List S → (S → ℚ) → ℚ → List (PEEvent S A) → (S → ℚ) × ℚ × List (PEEvent S A)
  | [], V, delta, tr => (V, delta, tr)
  | s :: rest, V, delta, tr =>
    if env.is_terminal s then evalSweepRep env pol gamma report rest V delta tr
    else
      let newv := qval env gamma V s (pol s)
      let tr2 :=
        if report && decide (V s ≠ newv) then
          tr ++ [PEEvent.backupLine s (pol s) (env.sim_step s (pol s)).1
                  (env.sim_step s (pol s)).2 newv]
        else tr
      evalSweepRep env pol gamma report rest (upd V s newv)
        (max delta |V s - newv|) tr2

/-- The `while True:` loop of `policy_evaluation` with reporting: prints the
pass header when `report` is set, then sweeps; `cnt` counts passes. -/
def peLoopRep [DecidableEq S] (env : DetEnv S A) (pol : S → A)
    (gamma theta : ℚ) (report : Bool) :
    ℕ → ℕ → (S → ℚ) → List (PEEvent S A) → Option ((S → ℚ) × List (PEEvent S A))
  | 0, _, _, _ => none
  | fuel + 1, cnt, V, tr =>
    let tr1 := if report then tr ++ [PEEvent.sweepHeader cnt] else tr
    let r := evalSweepRep env pol gamma report env.state_space V 0 tr1
    if r.2.1 < theta then some (r.1, r.2.2)
    else peLoopRep env pol gamma theta report fuel (cnt + 1) r.1 r.2.2

/-- `policy_evaluation` with its `report` flag and the trace it emits. -/
def policy_evaluation_rep [DecidableEq S] (env : DetEnv S A) (pol : S → A)
    (gamma theta : ℚ) (report : Bool) (fuel : ℕ) :
    Option ((S → ℚ) × List (PEEvent S A)) :=
  peLoopRep env pol gamma theta report fuel 1 (fun _ => 0) []

/-- The outer loop of `policy_iteration` with the `report` flag it forwards
to every `policy_evaluation` call (policy iteration itself prints nothing);
traces of successive evaluations are concatenated, like successive prints. -/
def piLoopRep [DecidableEq S] [DecidableEq A] (env : DetEnv S A)
    (gamma theta : ℚ) (report : Bool) (peFuel : ℕ) :
    ℕ → (S → A) → List (PEEvent S A) →
      Option ((S → A) × (S → ℚ) × List (PEEvent S A))
  | 0, _, _ => none
  | fuel + 1, pol, tr =>
    match policy_evaluation_rep env pol gamma theta report peFuel with
    | none => none
    | some r =>
      if piGuard env gamma r.1 then
        if piStable env pol (piImprove env gamma r.1 pol) then
          some (piImprove env gamma r.1 pol, r.1, tr ++ r.2)
        else piLoopRep env gamma theta report peFuel fuel
          (piImprove env gamma r.1 pol) (tr ++ r.2)
      else none

/-- `policy_iteration` with its `report` flag and the forwarded trace. -/
def policy_iteration_rep [DecidableEq S] [DecidableEq A] (env : DetEnv S A)
    (pol : S → A) (gamma theta : ℚ) (report : Bool) (outerFuel peFuel : ℕ) :
    Option ((S → A) × (S → ℚ) × List (PEEvent S A)) :=
  piLoopRep env gamma theta report peFuel outerFuel pol []

/-- Parameter list of `def policy_evaluation(env, policy, gamma: float = 1.0,
theta: float = 1e-6, report: bool = False)`. -/
def policy_evaluation_params : List String :=
  ["env", "policy", "gamma", "theta", "report"]

/-- Parameter list of `def policy_iteration(env, policy, gamma: float = 1.0,
theta: float = 1e-8, report: bool = False)`. -/
def policy_iteration_params : List String :=
  ["env", "policy", "gamma", "theta", "report"]

/-- Parameter list of `def value_iteration(env, gamma=1.0, theta=1e-8)`:
the source function has no reporting flag at all. -/
def value_iteration_params : List String :=
  ["env", "gamma", "theta"]

/-- Knapsack actions, the labels `"take"` and `"skip"` of the source. -/
inductive KAct where
  | take
  | skip
deriving DecidableEq, Repr

/-- `KnapsackEnv.__init__` stores the instance data (`weights`, `values`,
`capacity`) and the episode fields `i`, `c`, `total_reward`, which start as
`None`.  `self.n = len(weights)` and the cached `self._states` are pure
functions of the instance data, modelled as `KnapsackEnv.n`/`knap_states`. -/
structure KnapsackEnv where
  weights : List ℤ
  values : List ℚ
  capacity : ℤ
  i : Option ℤ
  c : Option ℤ
  total_reward : Option ℚ
deriving DecidableEq

/-- `self.n = len(weights)`. -/
def KnapsackEnv.n (e : KnapsackEnv) : ℕ := e.weights.length

/-- `self._states = [(i, c) for i in range(self.n + 1) for c in
range(self.capacity + 1)]` (an empty range when `capacity < 0`). -/
def knap_states (e : KnapsackEnv) : List (ℤ × ℤ) :=
  (List.range (e.n + 1)).flatMap fun i =>
    (List.range (e.capacity + 1).toNat).map fun c => ((i : ℤ), (c : ℤ))

/-- `KnapsackEnv.is_terminal`: `state[0] >= self.n`. -/
def knap_is_terminal (e : KnapsackEnv) (s : ℤ × ℤ) : Bool :=
  decide ((e.n : ℤ) ≤ s.1)

/-- `KnapsackEnv.actions`: `[]` past the last item, else `["skip"]` plus
`"take"` when the item fits (`weights[i] <= c`). -/
def knap_actions (e : KnapsackEnv) (s : ℤ × ℤ) : List KAct :=
  if (e.n : ℤ) ≤ s.1 then []
  else if e.weights.getD s.1.toNat 0 ≤ s.2 then [KAct.skip, KAct.take]
  else [KAct.skip]

/-- `KnapsackEnv.sim_step(state, action)`: no legality check at all —
`"take"` always yields `((i+1, c - weights[i]), values[i])`, `"skip"` yields
`((i+1, c), 0)`.  (List indexing is modelled on the in-range indices the
claims quantify over.) -/
def knap_sim_step (e : KnapsackEnv) (s : ℤ × ℤ) (a : KAct) : (ℤ × ℤ) × ℚ :=
  match a with
  | KAct.take => ((s.1 + 1, s.2 - e.weights.getD s.1.toNat 0), e.values.getD s.1.toNat 0)
  | KAct.skip => ((s.1 + 1, s.2), 0)

/-- The `sim_step` method as a method: its body assigns no attribute of
`self`, so the environment after the call is the receiver unchanged. -/
def knap_sim_step_method (e : KnapsackEnv) (s : ℤ × ℤ) (a : KAct) :
    ((ℤ × ℤ) × ℚ) × KnapsackEnv :=
  (knap_sim_step e s a, e)

/-- The duck-typed environment object the solvers receive. -/
def KnapsackEnv.toDetEnv (e : KnapsackEnv) : DetEnv (ℤ × ℤ) KAct :=
  ⟨knap_states e, knap_is_terminal e, knap_sim_step e, knap_actions e⟩

/-- `InventoryEnv.__init__`: instance data plus the episode fields `t`, `S`,
`total_reward` (started as `None`); `self.n = len(demand)` and the cached
`self._states` are pure functions of the instance data. -/
structure InventoryEnv where
  demand : List ℤ
  production_costs : List ℚ
  holding_costs : List ℚ
  capacity : ℤ
  start_inventory : ℤ
  t : Option ℤ
  invS : Option ℤ
  total_reward : Option ℚ
deriving DecidableEq

/-- `self.n = len(demand)`. -/
def InventoryEnv.n (e : InventoryEnv) : ℕ := e.demand.length

/-- `InventoryEnv.actions(state)`: `[]` when terminal, otherwise the range
`min_order .. max_order`; raises `ValueError` (modelled `none`) when
`min_order > max_order` (infeasible state). -/
def inv_actions (e : InventoryEnv) (s : ℤ × ℤ) : Option (List ℤ) :=
  if (e.n : ℤ) ≤ s.1 then some []
  else
    let d := e.demand.getD s.1.toNat 0
    let minOrder := max 0 (d - s.2)
    let maxOrder := e.capacity - s.2
    if maxOrder < minOrder then none
    else some ((List.range (maxOrder - minOrder + 1).toNat).map fun k => minOrder + (k : ℤ))

/-- `InventoryEnv.sim_step(state, x)`: validates `x in self.actions(state)`
and raises `ValueError` (modelled `none`) otherwise; on success returns
`((t+1, I_t), -(c_t*x + h_t*I_t))` with `I_t = S + x - d_t`. -/
def inv_sim_step (e : InventoryEnv) (s : ℤ × ℤ) (x : ℤ) :
    Option ((ℤ × ℤ) × ℚ) :=
  match inv_actions e s with
  | none => none
  | some acts =>
    if x ∈ acts then
      let d := e.demand.getD s.1.toNat 0
      let It := s.2 + x - d
      let cost : ℚ :=
        e.production_costs.getD s.1.toNat 0 * (x : ℚ) +
          e.holding_costs.getD s.1.toNat 0 * (It : ℚ)
      some ((s.1 + 1, It), -cost)
    else none

/-- The `sim_step` method of `InventoryEnv` as a method: when it returns (no
exception), the environment after the call is the receiver unchanged, since
the body assigns no attribute of `self`. -/
def inv_sim_step_method (e : InventoryEnv) (s : ℤ × ℤ) (x : ℤ) :
    Option (((ℤ × ℤ) × ℚ) × InventoryEnv) :=
  (inv_sim_step e s x).map fun r => (r, e)

/-! ### Concrete fixtures used by witnesses and counterexamples -/

/-- Two-state environment: state `0` non-terminal with actions `[0, 1]`
(action `0` pays `1`, action `1` pays `2`, both moving to the terminal
state `1`). -/
def envW : DetEnv (Fin 2) (Fin 2) where
  state_space := [0, 1]
  is_terminal := fun s => decide (s = 1)
  sim_step := fun s a => if s = 0 then (if a = 0 then (1, 1) else (1, 2)) else (1, 0)
  actions := fun s => if s = 0 then [0, 1] else []

/-- The constant-`0` policy on the two-state fixtures. -/
def polInit0 : Fin 2 → Fin 2 := fun _ => 0

/-- The two-state policy taking action `1` at state `0` and `0` elsewhere. -/
def polHead1 : Fin 2 → Fin 2 := fun s => if s = 0 then 1 else 0

/-- The five-state policy taking action `1` at state `0` and `0` elsewhere
(the initial policy of the C8 counterexample run). -/
def polC8 : Fin 5 → Fin 2 := fun s => if s = 0 then 1 else 0

/-- Two-state environment with a self-loop: at state `0`, action `0` loops
(`(0, 6/5)`) and action `1` jumps to the terminal state (`(1, 111/40)`).
With `gamma = 3/4` and `theta = 1` both solvers terminate, yet their value
estimates at state `0` are `105/32` and `21/10`, more than `theta` apart. -/
def envC2 : DetEnv (Fin 2) (Fin 2) where
  state_space := [0, 1]
  is_terminal := fun s => decide (s = 1)
  sim_step := fun s a =>
    if s = 0 then (if a = 0 then (0, 6/5) else (1, 111/40)) else (1, 0)
  actions := fun s => if s = 0 then [0, 1] else []

/-- Five-state environment (state `4` terminal): at state `0` action `0`
enters the slowly-evaluated chain `1 → 2 → 3 → 4` (reward `3/2` then `19/10`
per link) and action `1` jumps directly to the terminal state for `2`.
With `gamma = 1` and `theta = 2`, policy iteration started from
`polHead1` terminates, but its second evaluation is pointwise lower at
state `0` than its first. -/
def envC8 : DetEnv (Fin 5) (Fin 2) where
  state_space := [0, 1, 2, 3, 4]
  is_terminal := fun s => decide (s = 4)
  sim_step := fun s a =>
    if s = 0 then (if a = 0 then (1, 3/2) else (4, 2))
    else if s = 1 then (2, 19/10)
    else if s = 2 then (3, 19/10)
    else if s = 3 then (4, 19/10)
    else (4, 0)
  actions := fun s => if s = 0 then [0, 1] else if s = 4 then [] else [0]

/-- Malformed two-state environment: state `0` is non-terminal but has an
empty action list. -/
def envEmpty : DetEnv (Fin 2) (Fin 2) where
  state_space := [0, 1]
  is_terminal := fun s => decide (s = 1)
  sim_step := fun _ _ => (1, 0)
  actions := fun _ => []

/-- The spec's concrete knapsack instance: `weights=[2,3,4]`,
`values=[3,4,5]`, `capacity=5`. -/
def knapEx : KnapsackEnv := ⟨[2, 3, 4], [3, 4, 5], 5, none, none, none⟩

/-- A one-item knapsack instance used by the `sim_step` purity/legality
witnesses. -/
def knapSmall : KnapsackEnv := ⟨[2], [3], 5, none, none, none⟩

/-- A one-period inventory instance used by the `sim_step` purity/legality
witnesses: demand `[1]`, production cost `[2]`, holding cost `[1]`,
capacity `3`, empty starting inventory. -/
def invSmall : InventoryEnv := ⟨[1], [2], [1], 3, 0, none, none, none⟩

/-! ### Lemmas about the policy-evaluation sweep -/

lemma evalSweep_delta_le [DecidableEq S] (env : DetEnv S A) (pol : S → A)
    (gamma : ℚ) :
    ∀ (L : List S) (V : S → ℚ) (delta : ℚ),
      delta ≤ (evalSweep env pol gamma L V delta).2 := by
  intro L
  induction L with
  | nil => intro V delta; simp [evalSweep]
  | cons s rest ih =>
    intro V delta
    cases hb : env.is_terminal s with
    | true => simpa [evalSweep, hb] using ih V delta
    | false =>
      simp only [evalSweep, hb, Bool.false_eq_true, if_false]
      exact le_trans (le_max_left _ _) (ih _ _)

lemma evalSweep_frame_not_mem [DecidableEq S] (env : DetEnv S A) (pol : S → A)
    (gamma : ℚ) :
    ∀ (L : List S) (V : S → ℚ) (delta : ℚ) (t : S), t ∉ L →
      (evalSweep env pol gamma L V delta).1 t = V t := by
  intro L
  induction L with
  | nil => intro V delta t _; simp [evalSweep]
  | cons s rest ih =>
    intro V delta t ht
    have hts : t ≠ s := fun h => ht (h ▸ List.mem_cons_self s rest)
    have htr : t ∉ rest := fun h => ht (List.mem_cons_of_mem s h)
    cases hb : env.is_terminal s with
    | true => simpa [evalSweep, hb] using ih V delta t htr
    | false =>
      simp only [evalSweep, hb, Bool.false_eq_true, if_false]
      rw [ih _ _ t htr]
      simp [upd, hts]

lemma evalSweep_frame_terminal [DecidableEq S] (env : DetEnv S A) (pol : S → A)
    (gamma : ℚ) :
    ∀ (L : List S) (V : S → ℚ) (delta : ℚ) (t : S), env.is_terminal t = true →
      (evalSweep env pol gamma L V delta).1 t = V t := by
  intro L
  induction L with
  | nil => intro V delta t _; simp [evalSweep]
  | cons s rest ih =>
    intro V delta t ht
    cases hb : env.is_terminal s with
    | true => simpa [evalSweep, hb] using ih V delta t ht
    | false =>
      simp only [evalSweep, hb, Bool.false_eq_true, if_false]
      rw [ih _ _ t ht]
      have hts : t ≠ s := by
        intro h; rw [h, hb] at ht; exact Bool.false_ne_true ht
      simp [upd, hts]

lemma evalSweep_abs_diff_le [DecidableEq S] (env : DetEnv S A) (pol : S → A)
    (gamma : ℚ) :
    ∀ (L : List S), L.Nodup → ∀ (V : S → ℚ) (delta : ℚ), 0 ≤ delta → ∀ t,
      |V t - (evalSweep env pol gamma L V delta).1 t| ≤
        (evalSweep env pol gamma L V delta).2 := by
  intro L
  induction L with
  | nil =>
    intro _ V delta h0 t
    simpa [evalSweep] using h0
  | cons s rest ih =>
    intro hnd V delta h0 t
    have hsr : s ∉ rest := (List.nodup_cons.mp hnd).1
    have hndr : rest.Nodup := (List.nodup_cons.mp hnd).2
    cases hb : env.is_terminal s with
    | true => simpa [evalSweep, hb] using ih hndr V delta h0 t
    | false =>
      simp only [evalSweep, hb, Bool.false_eq_true, if_false]
      set newv := qval env gamma V s (pol s) with hnew
      have h1 : (0 : ℚ) ≤ max delta |V s - newv| :=
        le_trans h0 (le_max_left _ _)
      by_cases hts : t = s
      · subst hts
        have hfix :
            (evalSweep env pol gamma rest (upd V t newv) (max delta |V t - newv|)).1 t
              = newv := by
          rw [evalSweep_frame_not_mem env pol gamma rest _ _ t hsr]
          simp [upd]
        rw [hfix]
        exact le_trans (le_max_right delta _)
          (evalSweep_delta_le env pol gamma rest _ _)
      · have hVt : upd V s newv t = V t := by simp [upd, hts]
        have := ih hndr (upd V s newv) (max delta |V s - newv|) h1 t
        rwa [hVt] at this

lemma evalSweep_residual [DecidableEq S] (env : DetEnv S A) (pol : S → A)
    (gamma : ℚ) (hg : 0 ≤ gamma) :
    ∀ (L : List S), L.Nodup → ∀ (V : S → ℚ) (delta : ℚ), 0 ≤ delta →
      ∀ t ∈ L, env.is_terminal t = false →
        |(evalSweep env pol gamma L V delta).1 t -
            qval env gamma (evalSweep env pol gamma L V delta).1 t (pol t)| ≤
          gamma * (evalSweep env pol gamma L V delta).2 := by
  intro L
  induction L with
  | nil => intro _ V delta _ t ht; exact absurd ht (List.not_mem_nil t)
  | cons s rest ih =>
    intro hnd V delta h0 t ht htm
    have hsr : s ∉ rest := (List.nodup_cons.mp hnd).1
    have hndr : rest.Nodup := (List.nodup_cons.mp hnd).2
    cases hb : env.is_terminal s with
    | true =>
      have htr : t ∈ rest := by
        rcases List.mem_cons.mp ht with h | h
        · exfalso; rw [h, hb] at htm; exact Bool.true_eq_false.mp htm
        · exact h
      simpa [evalSweep, hb] using ih hndr V delta h0 t htr htm
    | false =>
      simp only [evalSweep, hb, Bool.false_eq_true, if_false]
      set newv := qval env gamma V s (pol s) with hnew
      set V1 := upd V s newv with hV1
      set d1 := max delta |V s - newv| with hd1
      have h1 : (0 : ℚ) ≤ d1 := le_trans h0 (le_max_left _ _)
      rcases List.mem_cons.mp ht with hts | htr
      · subst hts
        set res := evalSweep env pol gamma rest V1 d1 with hres
        have hfix : res.1 t = newv := by
          rw [hres, evalSweep_frame_not_mem env pol gamma rest _ _ t hsr]
          simp [hV1, upd]
        set n := (env.sim_step t (pol t)).1 with hn
        have hdiff :
            res.1 t - qval env gamma res.1 t (pol t) = gamma * (V n - res.1 n) := by
          rw [hfix, hnew]
          simp only [qval, ← hn]
          ring
        rw [hdiff, abs_mul, abs_of_nonneg hg]
        have hbound : |V n - res.1 n| ≤ res.2 := by
          by_cases hns : n = t
          · have : res.1 n = newv := by
              rw [hns, hres, evalSweep_frame_not_mem env pol gamma rest _ _ t hsr]
              simp [hV1, upd]
            rw [this, hns]
            exact le_trans (le_max_right delta _)
              (evalSweep_delta_le env pol gamma rest _ _)
          · have hVn : V n = V1 n := by simp [hV1, upd, hns]
            rw [hVn]
            exact evalSweep_abs_diff_le env pol gamma rest hndr V1 d1 h1 n
        exact mul_le_mul_of_nonneg_left hbound hg
      · exact ih hndr V1 d1 h1 t htr htm

/-! ### Lemmas about the policy-evaluation loop -/

lemma peLoop_some [DecidableEq S] (env : DetEnv S A) (pol : S → A)
    (gamma theta : ℚ) :
    ∀ (fuel : ℕ) (V0 V : S → ℚ), peLoop env pol gamma theta fuel V0 = some V →
      ∃ Vp, (evalSweep env pol gamma env.state_space Vp 0).1 = V ∧
        (evalSweep env pol gamma env.state_space Vp 0).2 < theta := by
  intro fuel
  induction fuel with
  | zero => intro V0 V h; simp [peLoop] at h
  | succ fuel ih =>
    intro V0 V h
    simp only [peLoop] at h
    by_cases hd : (evalSweep env pol gamma env.state_space V0 0).2 < theta
    · rw [if_pos hd] at h
      exact ⟨V0, Option.some_inj.mp h, hd⟩
    · rw [if_neg hd] at h
      exact ih _ _ h

lemma peLoop_terminal_zero [DecidableEq S] (env : DetEnv S A) (pol : S → A)
    (gamma theta : ℚ) :
    ∀ (fuel : ℕ) (V0 V : S → ℚ),
      (∀ s, env.is_terminal s = true → V0 s = 0) →
      peLoop env pol gamma theta fuel V0 = some V →
      ∀ s, env.is_terminal s = true → V s = 0 := by
  intro fuel
  induction fuel with
  | zero => intro V0 V _ h; simp [peLoop] at h
  | succ fuel ih =>
    intro V0 V h0 h s hs
    simp only [peLoop] at h
    by_cases hd : (evalSweep env pol gamma env.state_space V0 0).2 < theta
    · rw [if_pos hd] at h
      rw [← Option.some_inj.mp h]
      rw [evalSweep_frame_terminal env pol gamma _ _ _ s hs]
      exact h0 s hs
    · rw [if_neg hd] at h
      refine ih _ _ ?_ h s hs
      intro t htm
      rw [evalSweep_frame_terminal env pol gamma _ _ _ t htm]
      exact h0 t htm

lemma policy_evaluation_terminal_zero [DecidableEq S] (env : DetEnv S A)
    (pol : S → A) (gamma theta : ℚ) (fuel : ℕ) (V : S → ℚ)
    (h : policy_evaluation env pol gamma theta fuel = some V) :
    ∀ s, env.is_terminal s = true → V s = 0 :=
  peLoop_terminal_zero env pol gamma theta fuel _ V (fun _ _ => rfl) h

/-! ### Lemmas about the value-iteration sweep and loop -/

lemma viSweep_none_of_empty [DecidableEq S] (env : DetEnv S A) (gamma : ℚ) :
    ∀ (L : List S) (V : S → ℚ) (delta : ℚ) (s : S), s ∈ L →
      env.is_terminal s = false → env.actions s = [] →
      viSweep env gamma L V delta = none := by
  intro L
  induction L with
  | nil => intro V delta s hs _ _; exact absurd hs (List.not_mem_nil s)
  | cons a rest ih =>
    intro V delta s hs hsm hact
    rcases List.mem_cons.mp hs with h | h
    · subst h
      simp [viSweep, hsm, hact, pymax]
    · cases hb : env.is_terminal a with
      | true =>
        simp only [viSweep, hb, if_true]
        exact ih V delta s h hsm hact
      | false =>
        simp only [viSweep, hb, Bool.false_eq_true, if_false]
        cases hm : pymax ((env.actions a).map (qval env gamma V a)) with
        | none => rfl
        | some bq => exact ih _ _ s h hsm hact

lemma viSweep_frame_terminal [DecidableEq S] (env : DetEnv S A) (gamma : ℚ) :
    ∀ (L : List S) (V : S → ℚ) (delta : ℚ) (r : (S → ℚ) × ℚ),
      viSweep env gamma L V delta = some r →
      ∀ t, env.is_terminal t = true → r.1 t = V t := by
  intro L
  induction L with
  | nil =>
    intro V delta r h t _
    simp only [viSweep] at h
    rw [← Option.some_inj.mp h]
  | cons s rest ih =>
    intro V delta r h t ht
    cases hb : env.is_terminal s with
    | true =>
      simp only [viSweep, hb, if_true] at h
      exact ih V delta r h t ht
    | false =>
      simp only [viSweep, hb, Bool.false_eq_true, if_false] at h
      cases hm : pymax ((env.actions s).map (qval env gamma V s)) with
      | none => rw [hm] at h; exact absurd h (by simp)
      | some bq =>
        rw [hm] at h
        have hts : t ≠ s := by
          intro hc; rw [hc, hb] at ht; exact Bool.false_ne_true ht
        rw [ih _ _ r h t ht]
        simp [upd, hts]

lemma viLoop_terminal_zero [DecidableEq S] (env : DetEnv S A)
    (gamma theta : ℚ) :
    ∀ (fuel : ℕ) (V0 V : S → ℚ),
      (∀ s, env.is_terminal s = true → V0 s = 0) →
      viLoop env gamma theta fuel V0 = some V →
      ∀ s, env.is_terminal s = true → V s = 0 := by
  intro fuel
  induction fuel with
  | zero => intro V0 V _ h; simp [viLoop] at h
  | succ fuel ih =>
    intro V0 V h0 h s hs
    simp only [viLoop] at h
    cases hm : viSweep env gamma env.state_space V0 0 with
    | none => rw [hm] at h; exact absurd h (by simp)
    | some r =>
      rw [hm] at h
      dsimp only at h
      by_cases hd : r.2 < theta
      · rw [if_pos hd] at h
        rw [← Option.some_inj.mp h]
        rw [viSweep_frame_terminal env gamma _ _ _ r hm s hs]
        exact h0 s hs
      · rw [if_neg hd] at h
        refine ih _ _ ?_ h s hs
        intro t htm
        rw [viSweep_frame_terminal env gamma _ _ _ r hm t htm]
        exact h0 t htm

lemma viLoop_none_of_empty [DecidableEq S] (env : DetEnv S A)
    (gamma theta : ℚ) (s : S) (hs : s ∈ env.state_space)
    (hsm : env.is_terminal s = false) (hact : env.actions s = []) :
    ∀ (fuel : ℕ) (V0 : S → ℚ), viLoop env gamma theta fuel V0 = none := by
  intro fuel V0
  cases fuel with
  | zero => rfl
  | succ fuel =>
    simp only [viLoop]
    rw [viSweep_none_of_empty env gamma env.state_space V0 0 s hs hsm hact]

lemma value_iteration_eq_some [DecidableEq S] {env : DetEnv S A}
    {gamma theta : ℚ} {fuel : ℕ} {polv : S → Option A} {V : S → ℚ}
    (h : value_iteration env gamma theta fuel = some (polv, V)) :
    viLoop env gamma theta fuel (fun _ => 0) = some V ∧
      ∀ s, polv s =
        if s ∈ env.state_space ∧ env.is_terminal s = false then
          greedy_action env gamma V s
        else none := by
  unfold value_iteration at h
  cases hv : viLoop env gamma theta fuel (fun _ => 0) with
  | none => rw [hv] at h; exact absurd h (by simp)
  | some V0 =>
    rw [hv] at h
    simp only [Option.map_some', Option.some_inj, Prod.mk.injEq] at h
    refine ⟨?_, ?_⟩
    · rw [h.2]
    · intro s
      rw [← h.2]
      exact (congrFun h.1 s).symm

/-! ### Claim theorems: C1, C3, C7 -/

/-- C1: for every environment (with a duplicate-free state enumeration, as
both concrete environments provide), every total deterministic policy,
every `gamma ∈ (0, 1]` and `theta > 0`, if `policy_evaluation` terminates
and returns `V`, then every non-terminal state satisfies the fixed-point
check `|V(s) - (r + gamma * V(s'))| < theta` with
`(s', r) = env.sim_step(s, policy[s])`. -/
theorem C1_policy_evaluation_fixed_point [DecidableEq S] (env : DetEnv S A)
    (pol : S → A) (gamma theta : ℚ) (fuel : ℕ) (V : S → ℚ)
    (hg0 : 0 < gamma) (hg1 : gamma ≤ 1) (ht : 0 < theta)
    (hnd : env.state_space.Nodup)
    (hpe : policy_evaluation env pol gamma theta fuel = some V) :
    ∀ s ∈ env.state_space, env.is_terminal s = false →
      |V s - ((env.sim_step s (pol s)).2 + gamma * V (env.sim_step s (pol s)).1)| <
        theta := by
  obtain ⟨Vp, hV, hdel⟩ := peLoop_some env pol gamma theta fuel _ V hpe
  intro s hs hsm
  have h0 : (0 : ℚ) ≤ (evalSweep env pol gamma env.state_space Vp 0).2 :=
    evalSweep_delta_le env pol gamma _ _ _
  have hres := evalSweep_residual env pol gamma (le_of_lt hg0)
    env.state_space hnd Vp 0 le_rfl s hs hsm
  rw [hV] at hres
  simp only [qval] at hres
  calc |V s - ((env.sim_step s (pol s)).2 + gamma * V (env.sim_step s (pol s)).1)|
      ≤ gamma * (evalSweep env pol gamma env.state_space Vp 0).2 := hres
    _ ≤ (evalSweep env pol gamma env.state_space Vp 0).2 :=
        mul_le_of_le_one_left h0 hg1
    _ < theta := hdel

set_option maxRecDepth 40000 in
/-- Witness for C1 on the two-state environment `envW` with the policy that
always plays action `1`: evaluation converges (`V 0 = 2`) and the
fixed-point residual at state `0` is below `1/100`. -/
theorem C1_witness :
    (0 : ℚ) < 1/100 ∧
      |((policy_evaluation envW polHead1 (1/2) (1/100) 3).getD (fun _ => 0)) 0 -
          ((envW.sim_step 0 (polHead1 0)).2 +
            (1/2) * ((policy_evaluation envW polHead1 (1/2) (1/100) 3).getD (fun _ => 0))
              ((envW.sim_step 0 (polHead1 0)).1))| < 1/100 := by
  cases ho : policy_evaluation envW polHead1 (1/2) (1/100) 3 with
  | none =>
    have hs : (policy_evaluation envW polHead1 (1/2) (1/100) 3).isSome = true := by
      with_unfolding_all decide
    rw [ho] at hs
    simp at hs
  | some V =>
    refine ⟨by norm_num, ?_⟩
    simp only [ho, Option.getD_some]
    exact C1_policy_evaluation_fixed_point envW polHead1 (1/2) (1/100) 3 V
      (by norm_num) (by norm_num) (by norm_num) (by decide) ho
      0 (by decide) (by decide)

/-- C3: for every environment and every terminal state `s`, the value
function returned by `policy_evaluation` and the one returned by
`value_iteration` map `s` to its initial value `0`, no matter how many
sweeps ran before convergence. -/
theorem C3_terminal_states_stay_zero [DecidableEq S] (env : DetEnv S A)
    (gamma theta : ℚ) (fuel : ℕ) (s : S)
    (hterm : env.is_terminal s = true) :
    (∀ (pol : S → A) (V : S → ℚ),
        policy_evaluation env pol gamma theta fuel = some V → V s = 0) ∧
      (∀ (polv : S → Option A) (V : S → ℚ),
        value_iteration env gamma theta fuel = some (polv, V) → V s = 0) := by
  constructor
  · intro pol V h
    exact policy_evaluation_terminal_zero env pol gamma theta fuel V h s hterm
  · intro polv V h
    obtain ⟨h1, _⟩ := value_iteration_eq_some h
    exact viLoop_terminal_zero env gamma theta fuel _ V (fun _ _ => rfl) h1 s hterm

set_option maxRecDepth 40000 in
/-- Witness for C3 on `envW`: state `1` is terminal and both solvers leave
its value at `0`. -/
theorem C3_witness :
    envW.is_terminal 1 = true ∧
      ((policy_evaluation envW polHead1 (1/2) (1/100) 3).getD (fun _ => 0)) 1 = 0 ∧
      ((value_iteration envW (1/2) (1/100) 3).getD (fun _ => none, fun _ => 0)).2 1 = 0 := by
  refine ⟨by decide, ?_, ?_⟩
  · cases ho : policy_evaluation envW polHead1 (1/2) (1/100) 3 with
    | none =>
      have hs : (policy_evaluation envW polHead1 (1/2) (1/100) 3).isSome = true := by
        with_unfolding_all decide
      rw [ho] at hs
      exact absurd hs (by simp)
    | some V =>
      simp only [Option.getD_some]
      exact (C3_terminal_states_stay_zero envW (1/2) (1/100) 3 1 (by decide)).1
        polHead1 V ho
  · cases ho : value_iteration envW (1/2) (1/100) 3 with
    | none =>
      have hs : (value_iteration envW (1/2) (1/100) 3).isSome = true := by
        with_unfolding_all decide
      rw [ho] at hs
      exact absurd hs (by simp)
    | some pv =>
      simp only [Option.getD_some]
      exact (C3_terminal_states_stay_zero envW (1/2) (1/100) 3 1 (by decide)).2
        pv.1 pv.2 (by rw [ho])

set_option maxRecDepth 400000 in
/-- C7: on the concrete knapsack instance `weights=[2,3,4]`,
`values=[3,4,5]`, `capacity=5`, value iteration returns `V((0,5)) = 7`,
policy `"take"` at `(0,5)` and `(1,3)`, and `"skip"` at every item-2 state
with remaining capacity below `4`. -/
theorem C7_knapsack_concrete_run :
    ((value_iteration knapEx.toDetEnv 1 (1/100000000) 10).map fun p =>
        ((p.2 (0, 5), p.1 (0, 5), p.1 (1, 3), p.1 (2, 0)) :
          ℚ × Option KAct × Option KAct × Option KAct)) =
      some (7, some KAct.take, some KAct.take, some KAct.skip) ∧
    ((value_iteration knapEx.toDetEnv 1 (1/100000000) 10).map fun p =>
        ((p.1 (2, 1), p.1 (2, 2), p.1 (2, 3)) :
          Option KAct × Option KAct × Option KAct)) =
      some (some KAct.skip, some KAct.skip, some KAct.skip) := by
  constructor
  · with_unfolding_all decide
  · with_unfolding_all decide

/-! ### Lemmas about the shared argmax loop -/

lemma greedyGo_spec (q : A → ℚ) :
    ∀ (l : List A) (ba : A) (bq : ℚ), bq = q ba →
      (greedyGo q l ba bq).2 = q (greedyGo q l ba bq).1 ∧
      bq ≤ (greedyGo q l ba bq).2 ∧
      (∀ b ∈ l, q b ≤ (greedyGo q l ba bq).2) ∧
      ((greedyGo q l ba bq).1 = ba ∨
        ∃ l1 l2, l = l1 ++ (greedyGo q l ba bq).1 :: l2 ∧
          bq < (greedyGo q l ba bq).2 ∧
          (∀ b ∈ l1, q b < (greedyGo q l ba bq).2) ∧
          (∀ b ∈ l2, q b ≤ (greedyGo q l ba bq).2)) := by
  intro l
  induction l with
  | nil =>
    intro ba bq hbq
    exact ⟨by simpa [greedyGo] using hbq, le_rfl, by simp, Or.inl rfl⟩
  | cons a rest ih =>
    intro ba bq hbq
    by_cases hqa : q a > bq
    · simp only [greedyGo, if_pos hqa]
      obtain ⟨e1, e2, e3, e4⟩ := ih a (q a) rfl
      refine ⟨e1, le_trans (le_of_lt hqa) e2, ?_, ?_⟩
      · intro b hb
        rcases List.mem_cons.mp hb with h | h
        · subst h; exact e2
        · exact e3 b h
      · rcases e4 with h | ⟨l1, l2, heq, hlt, h5, h6⟩
        · refine Or.inr ⟨[], rest, ?_, lt_of_lt_of_le hqa e2, by simp, e3⟩
          rw [List.nil_append, h]
        · refine Or.inr ⟨a :: l1, l2, by rw [List.cons_append, ← heq],
            lt_of_lt_of_le hqa e2, ?_, h6⟩
          intro b hb
          rcases List.mem_cons.mp hb with h | h
          · subst h; exact hlt
          · exact h5 b h
    · simp only [greedyGo, if_neg hqa]
      obtain ⟨e1, e2, e3, e4⟩ := ih ba bq hbq
      have hqa2 : q a ≤ bq := not_lt.mp hqa
      refine ⟨e1, e2, ?_, ?_⟩
      · intro b hb
        rcases List.mem_cons.mp hb with h | h
        · subst h; exact le_trans hqa2 e2
        · exact e3 b h
      · rcases e4 with h | ⟨l1, l2, heq, hlt, h5, h6⟩
        · exact Or.inl h
        · refine Or.inr ⟨a :: l1, l2, by rw [List.cons_append, ← heq],
            hlt, ?_, h6⟩
          intro b hb
          rcases List.mem_cons.mp hb with h | h
          · subst h; exact lt_of_le_of_lt hqa2 hlt
          · exact h5 b h

lemma greedy_action_spec (env : DetEnv S A) (gamma : ℚ) (V : S → ℚ) (s : S)
    (a : A) (h : greedy_action env gamma V s = some a) :
    (∀ b ∈ env.actions s, qval env gamma V s b ≤ qval env gamma V s a) ∧
      ∃ l1 l2, env.actions s = l1 ++ a :: l2 ∧
        (∀ b ∈ l1, qval env gamma V s b < qval env gamma V s a) ∧
        (∀ b ∈ l2, qval env gamma V s b ≤ qval env gamma V s a) := by
  unfold greedy_action at h
  cases hact : env.actions s with
  | nil => rw [hact] at h; exact absurd h (by simp)
  | cons a0 rest =>
    rw [hact] at h
    simp only [Option.some_inj] at h
    obtain ⟨e1, e2, e3, e4⟩ :=
      greedyGo_spec (qval env gamma V s) rest a0 (qval env gamma V s a0) rfl
    have hqa :
        (greedyGo (qval env gamma V s) rest a0 (qval env gamma V s a0)).2 =
          qval env gamma V s a := by
      rw [e1, h]
    constructor
    · intro b hb
      rcases List.mem_cons.mp hb with hb0 | hbr
      · subst hb0; exact hqa ▸ e2
      · exact hqa ▸ e3 b hbr
    · rcases e4 with hcase | ⟨l1, l2, heq, hlt, h5, h6⟩
      · have ha0 : a0 = a := by rw [← h, hcase]
        refine ⟨[], rest, by rw [List.nil_append, ha0], by simp, ?_⟩
        intro b hb
        exact hqa ▸ e3 b hb
      · rw [h] at heq
        refine ⟨a0 :: l1, l2, by rw [List.cons_append, ← heq], ?_,
          fun b hb => hqa ▸ h6 b hb⟩
        intro b hb
        rcases List.mem_cons.mp hb with hb0 | hbr
        · subst hb0; exact hqa ▸ hlt
        · exact hqa ▸ h5 b hbr

lemma greedy_action_mem (env : DetEnv S A) (gamma : ℚ) (V : S → ℚ) (s : S)
    (a : A) (h : greedy_action env gamma V s = some a) : a ∈ env.actions s := by
  obtain ⟨_, l1, l2, heq, _, _⟩ := greedy_action_spec env gamma V s a h
  rw [heq]
  exact List.mem_append.mpr (Or.inr (List.mem_cons_self a l2))

lemma greedy_action_of_empty (env : DetEnv S A) (gamma : ℚ) (V : S → ℚ)
    (s : S) (hact : env.actions s = []) : greedy_action env gamma V s = none := by
  unfold greedy_action
  rw [hact]

lemma greedy_action_isSome (env : DetEnv S A) (gamma : ℚ) (V : S → ℚ)
    (s : S) (hact : env.actions s ≠ []) :
    (greedy_action env gamma V s).isSome = true := by
  unfold greedy_action
  cases h : env.actions s with
  | nil => exact absurd h hact
  | cons a0 rest => rfl

/-! ### Lemmas about the policy-iteration loop -/

lemma piLoop_eval [DecidableEq S] [DecidableEq A] (env : DetEnv S A)
    (gamma theta : ℚ) (peFuel : ℕ) :
    ∀ (fuel : ℕ) (pol π : S → A) (V : S → ℚ),
      piLoop env gamma theta peFuel fuel pol = some (π, V) →
      ∃ p, policy_evaluation env p gamma theta peFuel = some V := by
  intro fuel
  induction fuel with
  | zero => intro pol π V h; simp [piLoop] at h
  | succ fuel ih =>
    intro pol π V h
    simp only [piLoop] at h
    cases hpe : policy_evaluation env pol gamma theta peFuel with
    | none => rw [hpe] at h; exact absurd h (by simp)
    | some V1 =>
      rw [hpe] at h
      dsimp only at h
      by_cases hg : piGuard env gamma V1
      · rw [if_pos hg] at h
        by_cases hst : piStable env pol (piImprove env gamma V1 pol)
        · rw [if_pos hst] at h
          have hV : V1 = V := congrArg Prod.snd (Option.some_inj.mp h)
          exact ⟨pol, hV ▸ hpe⟩
        · rw [if_neg hst] at h
          exact ih _ π V h
      · rw [if_neg hg] at h
        exact absurd h (by simp)

lemma piLoop_greedy_stable [DecidableEq S] [DecidableEq A] (env : DetEnv S A)
    (gamma theta : ℚ) (peFuel : ℕ) :
    ∀ (fuel : ℕ) (pol π : S → A) (V : S → ℚ),
      piLoop env gamma theta peFuel fuel pol = some (π, V) →
      ∀ s ∈ env.state_space, env.is_terminal s = false →
        greedy_action env gamma V s = some (π s) := by
  intro fuel
  induction fuel with
  | zero => intro pol π V h; simp [piLoop] at h
  | succ fuel ih =>
    intro pol π V h
    simp only [piLoop] at h
    cases hpe : policy_evaluation env pol gamma theta peFuel with
    | none => rw [hpe] at h; exact absurd h (by simp)
    | some V1 =>
      rw [hpe] at h
      dsimp only at h
      by_cases hg : piGuard env gamma V1
      · rw [if_pos hg] at h
        by_cases hst : piStable env pol (piImprove env gamma V1 pol)
        · rw [if_pos hst] at h
          have hpair := Option.some_inj.mp h
          have hπ : piImprove env gamma V1 pol = π := congrArg Prod.fst hpair
          have hV : V1 = V := congrArg Prod.snd hpair
          subst hV
          intro s hs hsm
          have hsome : (greedy_action env gamma V1 s).isSome = true := by
            have := List.all_eq_true.mp hg s hs
            rw [hsm] at this
            simpa using this
          obtain ⟨x, hx⟩ := Option.isSome_iff_exists.mp hsome
          rw [hx]
          rw [← hπ]
          unfold piImprove
          rw [if_pos ⟨hs, hsm⟩, hx, Option.getD_some]
        · rw [if_neg hst] at h
          exact ih _ π V h
      · rw [if_neg hg] at h
        exact absurd h (by simp)

/-! ### Claim theorems: C4, C5, and the C2 counterexample -/

/-- C4: the action selected by the shared argmax loop of policy iteration's
improvement step and value iteration's policy-derivation pass is the first
action in `actions(s)` enumeration order attaining the maximal one-step
value: every earlier action is strictly worse and no later action is
strictly better (later ties never replace the incumbent).  The second and
third conjuncts tie the shared loop (`greedy_action`) to the policies the
two solvers actually return. -/
theorem C4_first_encountered_tie_break [DecidableEq S] [DecidableEq A] :
    (∀ (env : DetEnv S A) (gamma : ℚ) (V : S → ℚ) (s : S) (a : A),
        greedy_action env gamma V s = some a →
        a ∈ env.actions s ∧
        (∀ b ∈ env.actions s, qval env gamma V s b ≤ qval env gamma V s a) ∧
        ∃ l1 l2, env.actions s = l1 ++ a :: l2 ∧
          (∀ b ∈ l1, qval env gamma V s b < qval env gamma V s a) ∧
          (∀ b ∈ l2, qval env gamma V s b ≤ qval env gamma V s a)) ∧
    (∀ (env : DetEnv S A) (gamma theta : ℚ) (fuel : ℕ)
        (polv : S → Option A) (V : S → ℚ),
        value_iteration env gamma theta fuel = some (polv, V) →
        ∀ s ∈ env.state_space, env.is_terminal s = false →
          polv s = greedy_action env gamma V s) ∧
    (∀ (env : DetEnv S A) (pol : S → A) (gamma theta : ℚ) (oF pF : ℕ)
        (π : S → A) (V : S → ℚ),
        policy_iteration env pol gamma theta oF pF = some (π, V) →
        ∀ s ∈ env.state_space, env.is_terminal s = false →
          greedy_action env gamma V s = some (π s)) := by
  refine ⟨?_, ?_, ?_⟩
  · intro env gamma V s a h
    obtain ⟨hall, hdec⟩ := greedy_action_spec env gamma V s a h
    exact ⟨greedy_action_mem env gamma V s a h, hall, hdec⟩
  · intro env gamma theta fuel polv V h s hs hsm
    obtain ⟨_, h2⟩ := value_iteration_eq_some h
    rw [h2 s, if_pos ⟨hs, hsm⟩]
  · intro env pol gamma theta oF pF π V h s hs hsm
    exact piLoop_greedy_stable env gamma theta pF oF pol π V h s hs hsm

/-- Witness for C4 on `envW` with the all-zero value table: the greedy
action at state `0` is action `1` (value `2` beats value `1`), it belongs
to the action list and dominates every action in it. -/
theorem C4_witness :
    greedy_action envW 1 (fun _ => 0) 0 = some 1 ∧
      (1 : Fin 2) ∈ envW.actions 0 ∧
      ∀ b ∈ envW.actions 0,
        qval envW 1 (fun _ => 0) 0 b ≤ qval envW 1 (fun _ => 0) 0 1 := by
  have h : greedy_action envW 1 (fun _ => 0) 0 = some 1 := by
    with_unfolding_all decide
  obtain ⟨hmem, hall, _⟩ :=
    (C4_first_encountered_tie_break (S := Fin 2) (A := Fin 2)).1
      envW 1 (fun _ => 0) 0 1 h
  exact ⟨h, hmem, hall⟩

/-- C5 (amended): with `actions(s)` empty for a non-terminal `s` in the
state space, `value_iteration` does fail at its value-phase `max` with the
empty-sequence error, but the shared argmax loop used by policy iteration's
improvement step and by the derivation pass completes with `best_a = None`
(stored as the policy entry for `s`) instead of raising. -/
theorem C5_empty_actions_behavior [DecidableEq S] (env : DetEnv S A)
    (gamma theta : ℚ) (s : S) (hs : s ∈ env.state_space)
    (hsm : env.is_terminal s = false) (hact : env.actions s = []) :
    (∀ fuel, value_iteration env gamma theta fuel = none) ∧
      ∀ V : S → ℚ, greedy_action env gamma V s = none := by
  constructor
  · intro fuel
    unfold value_iteration
    rw [viLoop_none_of_empty env gamma theta s hs hsm hact fuel (fun _ => 0)]
    rfl
  · intro V
    exact greedy_action_of_empty env gamma V s hact

/-- Counterexample to C5 as stated: on `envEmpty` (state `0` non-terminal
with an empty action list) the argmax loop of the improvement step
completes and yields the `None` policy entry rather than raising, while
only the value phase of `value_iteration` aborts. -/
theorem C5_counterexample :
    envEmpty.is_terminal 0 = false ∧ envEmpty.actions 0 = [] ∧
      greedy_action envEmpty 1 (fun _ => 0) 0 = none ∧
      value_iteration envEmpty 1 1 3 = none := by
  refine ⟨by decide, by decide, ?_, ?_⟩
  · exact greedy_action_of_empty envEmpty 1 (fun _ => 0) 0 rfl
  · unfold value_iteration
    rw [viLoop_none_of_empty envEmpty 1 1 0 (by decide) (by decide) rfl 3
      (fun _ => 0)]
    rfl

/-- Witness for the amended C5 on `envEmpty`. -/
theorem C5_witness :
    value_iteration envEmpty 1 1 4 = none ∧
      greedy_action envEmpty 1 (fun _ => 1) 0 = none := by
  have h := C5_empty_actions_behavior envEmpty 1 1 0 (by decide) (by decide) rfl
  exact ⟨h.1 4, h.2 (fun _ => 1)⟩

/-- Counterexample to C2 as stated: on `envC2` with `gamma = 3/4` and
`theta = 1`, both solvers terminate and return the same greedy policy
(the self-loop action `0`), yet the value iteration estimate at state `0`
(`105/32`) and the policy iteration estimate (`21/10`) differ by
`189/160 > theta`. -/
theorem C2_counterexample :
    ((value_iteration envC2 (3/4) 1 5).map fun p => p.2 0) = some (105/32) ∧
      ((policy_iteration envC2 polInit0 (3/4) 1 5 5).map fun p => p.2 0) =
        some (21/10) ∧
      ((value_iteration envC2 (3/4) 1 5).map fun p => p.1 0) = some (some 0) ∧
      ((policy_iteration envC2 polInit0 (3/4) 1 5 5).map fun p => p.1 0) =
        some 0 ∧
      ¬(|(105/32 : ℚ) - 21/10| < 1) ∧ ¬(|(105/32 : ℚ) - 21/10| ≤ 1) := by
  refine ⟨?_, ?_, ?_, ?_, ?_, ?_⟩ <;> with_unfolding_all decide

/-! ### Lemmas about the Python max fold -/

lemma le_maxAux : ∀ (l : List ℚ) (x : ℚ), x ≤ maxAux x l
  | [], _ => le_rfl
  | y :: ys, x => le_trans (le_max_left x y) (le_maxAux ys (max x y))

lemma maxAux_le : ∀ (l : List ℚ) (x b : ℚ), x ≤ b → (∀ y ∈ l, y ≤ b) →
    maxAux x l ≤ b
  | [], _, _, hx, _ => hx
  | y :: ys, x, b, hx, hall =>
    maxAux_le ys (max x y) b (max_le hx (hall y (List.mem_cons_self y ys)))
      (fun z hz => hall z (List.mem_cons_of_mem y hz))

lemma maxAux_mem_or : ∀ (l : List ℚ) (x : ℚ), maxAux x l = x ∨ maxAux x l ∈ l := by
  intro l
  induction l with
  | nil => intro x; exact Or.inl rfl
  | cons y ys ih =>
    intro x
    rcases ih (max x y) with h | h
    · rcases max_choice x y with hc | hc
      · exact Or.inl (by simpa [maxAux, hc] using h)
      · refine Or.inr ?_
        simp only [maxAux]
        rw [h, hc]
        exact List.mem_cons_self y ys
    · exact Or.inr (List.mem_cons_of_mem y (by simpa [maxAux] using h))

lemma le_maxAux_of_mem : ∀ (l : List ℚ) (x y : ℚ), y ∈ l → y ≤ maxAux x l := by
  intro l
  induction l with
  | nil => intro x y hy; exact absurd hy (List.not_mem_nil y)
  | cons z zs ih =>
    intro x y hy
    rcases List.mem_cons.mp hy with h | h
    · subst h
      exact le_trans (le_max_right x y) (le_maxAux zs (max x y))
    · exact ih (max x z) y h

lemma pymax_spec (l : List ℚ) (m : ℚ) (h : pymax l = some m) :
    m ∈ l ∧ ∀ y ∈ l, y ≤ m := by
  cases l with
  | nil => exact absurd h (by simp [pymax])
  | cons x xs =>
    simp only [pymax, Option.some_inj] at h
    subst h
    constructor
    · rcases maxAux_mem_or xs x with h | h
      · rw [h]; exact List.mem_cons_self x xs
      · exact List.mem_cons_of_mem x h
    · intro y hy
      rcases List.mem_cons.mp hy with h | h
      · subst h; exact le_maxAux xs y
      · exact le_maxAux_of_mem xs x y h

lemma pymax_eq_of_dominant (l : List ℚ) (m : ℚ) (hm : m ∈ l)
    (hd : ∀ y ∈ l, y ≤ m) : pymax l = some m := by
  cases l with
  | nil => exact absurd hm (List.not_mem_nil m)
  | cons x xs =>
    simp only [pymax, Option.some_inj]
    refine le_antisymm
      (maxAux_le xs x m (hd x (List.mem_cons_self x xs))
        (fun z hz => hd z (List.mem_cons_of_mem x hz))) ?_
    rcases List.mem_cons.mp hm with h | h
    · subst h; exact le_maxAux xs m
    · exact le_maxAux_of_mem xs x m h

lemma maxAux_map_abs_sub (f g : A → ℚ) (c : ℚ) :
    ∀ (l : List A) (x1 x2 : ℚ), |x1 - x2| ≤ c →
      (∀ a ∈ l, |f a - g a| ≤ c) →
      |maxAux x1 (l.map f) - maxAux x2 (l.map g)| ≤ c := by
  intro l
  induction l with
  | nil => intro x1 x2 hx _; exact hx
  | cons a as ih =>
    intro x1 x2 hx hall
    simp only [List.map_cons, maxAux]
    refine ih (max x1 (f a)) (max x2 (g a)) ?_
      (fun b hb => hall b (List.mem_cons_of_mem a hb))
    exact le_trans (abs_max_sub_max_le_max x1 (f a) x2 (g a))
      (max_le hx (hall a (List.mem_cons_self a as)))

lemma pymax_map_abs_sub (f g : A → ℚ) (c : ℚ) (l : List A) (m1 m2 : ℚ)
    (h1 : pymax (l.map f) = some m1) (h2 : pymax (l.map g) = some m2)
    (hc : ∀ a ∈ l, |f a - g a| ≤ c) : |m1 - m2| ≤ c := by
  cases l with
  | nil => exact absurd h1 (by simp [pymax])
  | cons a as =>
    simp only [List.map_cons, pymax, Option.some_inj] at h1 h2
    subst h1
    subst h2
    exact maxAux_map_abs_sub f g c as (f a) (g a)
      (hc a (List.mem_cons_self a as))
      (fun b hb => hc b (List.mem_cons_of_mem a hb))

/-! ### Extrema over the finite state enumeration -/

lemma exists_min_image (l : List S) (f : S → ℚ) (h : l ≠ []) :
    ∃ s ∈ l, ∀ t ∈ l, f s ≤ f t := by
  induction l with
  | nil => exact absurd rfl h
  | cons a rest ih =>
    by_cases hrest : rest = []
    · subst hrest
      refine ⟨a, List.mem_cons_self a [], ?_⟩
      intro t ht
      rcases List.mem_cons.mp ht with h | h
      · subst h; exact le_rfl
      · exact absurd h (List.not_mem_nil t)
    · obtain ⟨s, hs, hmin⟩ := ih hrest
      by_cases hc : f a ≤ f s
      · refine ⟨a, List.mem_cons_self a rest, ?_⟩
        intro t ht
        rcases List.mem_cons.mp ht with h | h
        · subst h; exact le_rfl
        · exact le_trans hc (hmin t h)
      · refine ⟨s, List.mem_cons_of_mem a hs, ?_⟩
        intro t ht
        rcases List.mem_cons.mp ht with h | h
        · subst h; exact le_of_lt (not_le.mp hc)
        · exact hmin t h

lemma exists_max_image (l : List S) (f : S → ℚ) (h : l ≠ []) :
    ∃ s ∈ l, ∀ t ∈ l, f t ≤ f s := by
  obtain ⟨s, hs, hmin⟩ := exists_min_image l (fun t => -(f t)) h
  refine ⟨s, hs, ?_⟩
  intro t ht
  have := hmin t ht
  linarith

/-! ### Congruence of the argmax loop in the value table -/

lemma greedyGo_congr (q1 q2 : A → ℚ) :
    ∀ (l : List A) (ba : A) (bq : ℚ), (∀ a ∈ l, q1 a = q2 a) →
      greedyGo q1 l ba bq = greedyGo q2 l ba bq := by
  intro l
  induction l with
  | nil => intro ba bq _; rfl
  | cons a rest ih =>
    intro ba bq hall
    have ha : q1 a = q2 a := hall a (List.mem_cons_self a rest)
    have hrest : ∀ b ∈ rest, q1 b = q2 b :=
      fun b hb => hall b (List.mem_cons_of_mem a hb)
    simp only [greedyGo, ha]
    by_cases hc : q2 a > bq
    · rw [if_pos hc, if_pos hc, ← ha, ih a (q1 a) hrest, ha]
    · rw [if_neg hc, if_neg hc, ih ba bq hrest]

lemma greedy_action_congr (env : DetEnv S A) (gamma : ℚ) (V1 V2 : S → ℚ)
    (s : S)
    (h : ∀ a ∈ env.actions s, qval env gamma V1 s a = qval env gamma V2 s a) :
    greedy_action env gamma V1 s = greedy_action env gamma V2 s := by
  unfold greedy_action
  cases hact : env.actions s with
  | nil => rfl
  | cons a0 rest =>
    rw [hact] at h
    dsimp only
    have ha0 : qval env gamma V1 s a0 = qval env gamma V2 s a0 :=
      h a0 (List.mem_cons_self a0 rest)
    rw [greedyGo_congr (qval env gamma V1 s) (qval env gamma V2 s) rest a0
      (qval env gamma V1 s a0) (fun b hb => h b (List.mem_cons_of_mem a0 hb)),
      ha0]

/-! ### Claim theorems: C2 (amended) and C8 -/

/-- C2 (amended): when both solvers terminate at exact fixed points (a final
sweep that changes no value, equivalently the returned tables satisfy their
Bellman equations exactly) and `0 ≤ gamma < 1`, the two value functions
agree exactly on every state and the two greedy policies coincide on every
non-terminal state.  (As stated — agreement within `theta` for arbitrary
terminating runs — the claim fails; see the counterexample.) -/
theorem C2_exact_fixed_point_agreement [DecidableEq S] [DecidableEq A]
    (env : DetEnv S A) (pol0 : S → A) (gamma theta : ℚ)
    (fuelVI oF pF : ℕ) (polv : S → Option A) (V1 : S → ℚ)
    (pol2 : S → A) (V2 : S → ℚ)
    (hg0 : 0 ≤ gamma) (hg1 : gamma < 1)
    (hclosed : ∀ s ∈ env.state_space, env.is_terminal s = false →
      ∀ a ∈ env.actions s, (env.sim_step s a).1 ∈ env.state_space)
    (hvi : value_iteration env gamma theta fuelVI = some (polv, V1))
    (hfix1 : ∀ s ∈ env.state_space, env.is_terminal s = false →
      pymax ((env.actions s).map (qval env gamma V1 s)) = some (V1 s))
    (hpi : policy_iteration env pol0 gamma theta oF pF = some (pol2, V2))
    (hfix2 : ∀ s ∈ env.state_space, env.is_terminal s = false →
      V2 s = qval env gamma V2 s (pol2 s)) :
    (∀ s ∈ env.state_space, V1 s = V2 s) ∧
      ∀ s ∈ env.state_space, env.is_terminal s = false →
        polv s = some (pol2 s) := by
  have hT1 : ∀ s, env.is_terminal s = true → V1 s = 0 := by
    obtain ⟨h1, _⟩ := value_iteration_eq_some hvi
    exact viLoop_terminal_zero env gamma theta fuelVI _ V1 (fun _ _ => rfl) h1
  have hT2 : ∀ s, env.is_terminal s = true → V2 s = 0 := by
    obtain ⟨p, hp⟩ := piLoop_eval env gamma theta pF oF pol0 pol2 V2 hpi
    exact policy_evaluation_terminal_zero env p gamma theta pF V2 hp
  have hstab := piLoop_greedy_stable env gamma theta pF oF pol0 pol2 V2 hpi
  have hfix2m : ∀ s ∈ env.state_space, env.is_terminal s = false →
      pymax ((env.actions s).map (qval env gamma V2 s)) = some (V2 s) := by
    intro s hs hsm
    obtain ⟨hall, _⟩ := greedy_action_spec env gamma V2 s (pol2 s) (hstab s hs hsm)
    have hmem := greedy_action_mem env gamma V2 s (pol2 s) (hstab s hs hsm)
    rw [hfix2 s hs hsm]
    refine pymax_eq_of_dominant _ _ (List.mem_map_of_mem _ hmem) ?_
    intro y hy
    obtain ⟨b, hb, rfl⟩ := List.mem_map.mp hy
    exact hall b hb
  have hvals : ∀ s ∈ env.state_space, V1 s = V2 s := by
    by_cases hne : env.state_space = []
    · intro s hs
      rw [hne] at hs
      exact absurd hs (List.not_mem_nil s)
    · obtain ⟨sm, hsm_mem, hmax⟩ :=
        exists_max_image env.state_space (fun t => |V1 t - V2 t|) hne
      have hkey : |V1 sm - V2 sm| ≤ gamma * |V1 sm - V2 sm| := by
        cases hb : env.is_terminal sm with
        | true =>
          rw [hT1 sm hb, hT2 sm hb]
          simp
        | false =>
          refine pymax_map_abs_sub (qval env gamma V1 sm) (qval env gamma V2 sm)
            (gamma * |V1 sm - V2 sm|) (env.actions sm) (V1 sm) (V2 sm)
            (hfix1 sm hsm_mem hb) (hfix2m sm hsm_mem hb) ?_
          intro a ha
          have hdiff : qval env gamma V1 sm a - qval env gamma V2 sm a =
              gamma * (V1 (env.sim_step sm a).1 - V2 (env.sim_step sm a).1) := by
            simp only [qval]
            ring
          rw [hdiff, abs_mul, abs_of_nonneg hg0]
          exact mul_le_mul_of_nonneg_left
            (hmax _ (hclosed sm hsm_mem hb a ha)) hg0
      have hzero : |V1 sm - V2 sm| = 0 := by
        by_contra hnz
        have hpos : 0 < |V1 sm - V2 sm| :=
          lt_of_le_of_ne (abs_nonneg _) (Ne.symm hnz)
        have hmul : (0 : ℚ) < (1 - gamma) * |V1 sm - V2 sm| :=
          mul_pos (by linarith) hpos
        nlinarith
      intro s hs
      have h0 : |V1 s - V2 s| = 0 :=
        le_antisymm (hzero ▸ hmax s hs) (abs_nonneg _)
      exact sub_eq_zero.mp (abs_eq_zero.mp h0)
  refine ⟨hvals, ?_⟩
  intro s hs hsm
  obtain ⟨_, hpolv⟩ := value_iteration_eq_some hvi
  rw [hpolv s, if_pos ⟨hs, hsm⟩]
  rw [greedy_action_congr env gamma V1 V2 s ?_]
  · exact hstab s hs hsm
  · intro a ha
    simp only [qval]
    rw [hvals _ (hclosed s hs hsm a ha)]

set_option maxRecDepth 40000 in
/-- Witness for the amended C2 on `envW` with `gamma = 1/2`: both solvers
reach exact fixed points (`V(0) = 2`, greedy action `1`) and the theorem
yields equal values and policies at state `0`. -/
theorem C2_witness :
    ((value_iteration envW (1/2) (1/100) 5).getD (fun _ => none, fun _ => 0)).2 0 =
      ((policy_iteration envW polInit0 (1/2) (1/100) 5 5).getD
        (fun _ => 0, fun _ => 0)).2 0 ∧
    ((value_iteration envW (1/2) (1/100) 5).getD (fun _ => none, fun _ => 0)).1 0 =
      some (((policy_iteration envW polInit0 (1/2) (1/100) 5 5).getD
        (fun _ => 0, fun _ => 0)).1 0) := by
  have hfix1p : ∀ s ∈ envW.state_space, envW.is_terminal s = false →
      pymax ((envW.actions s).map (qval envW (1/2)
        ((value_iteration envW (1/2) (1/100) 5).getD
          (fun _ => none, fun _ => 0)).2 s)) =
        some (((value_iteration envW (1/2) (1/100) 5).getD
          (fun _ => none, fun _ => 0)).2 s) := by
    with_unfolding_all decide
  have hfix2p : ∀ s ∈ envW.state_space, envW.is_terminal s = false →
      ((policy_iteration envW polInit0 (1/2) (1/100) 5 5).getD
          (fun _ => 0, fun _ => 0)).2 s =
        qval envW (1/2)
          ((policy_iteration envW polInit0 (1/2) (1/100) 5 5).getD
            (fun _ => 0, fun _ => 0)).2 s
          (((policy_iteration envW polInit0 (1/2) (1/100) 5 5).getD
            (fun _ => 0, fun _ => 0)).1 s) := by
    with_unfolding_all decide
  cases hvi : value_iteration envW (1/2) (1/100) 5 with
  | none =>
    have hs : (value_iteration envW (1/2) (1/100) 5).isSome = true := by
      with_unfolding_all decide
    rw [hvi] at hs
    simp at hs
  | some pv1 =>
    cases hpi : policy_iteration envW polInit0 (1/2) (1/100) 5 5 with
    | none =>
      have hs : (policy_iteration envW polInit0 (1/2) (1/100) 5 5).isSome = true := by
        with_unfolding_all decide
      rw [hpi] at hs
      simp at hs
    | some pv2 =>
      rw [hvi] at hfix1p
      rw [hpi] at hfix2p
      simp only [Option.getD_some] at hfix1p hfix2p ⊢
      have hmain := C2_exact_fixed_point_agreement envW polInit0 (1/2) (1/100)
        5 5 5 pv1.1 pv1.2 pv2.1 pv2.2 (by norm_num) (by norm_num)
        (by decide) (by rw [hvi]) hfix1p (by rw [hpi]) hfix2p
      exact ⟨hmain.1 0 (by decide), hmain.2 0 (by decide) (by decide)⟩

/-- C8 (amended): one improvement step of policy iteration is pointwise
non-decreasing provided the two surrounding policy evaluations are exact
(final sweep delta `0`), the initial policy plays legal actions, successor
states stay in the state space and `0 ≤ gamma < 1`.  (As stated — for the
approximate evaluations actually produced with a finite `theta` — the claim
fails; see the counterexample.) -/
theorem C8_monotone_improvement_exact [DecidableEq S] (env : DetEnv S A)
    (polk polnext : S → A) (gamma theta : ℚ) (f1 f2 : ℕ) (Vk Vn : S → ℚ)
    (hg0 : 0 ≤ gamma) (hg1 : gamma < 1)
    (hclosed : ∀ s ∈ env.state_space, env.is_terminal s = false →
      ∀ a ∈ env.actions s, (env.sim_step s a).1 ∈ env.state_space)
    (hlegal : ∀ s ∈ env.state_space, env.is_terminal s = false →
      polk s ∈ env.actions s)
    (hpeK : policy_evaluation env polk gamma theta f1 = some Vk)
    (hfixK : ∀ s ∈ env.state_space, env.is_terminal s = false →
      Vk s = qval env gamma Vk s (polk s))
    (himp : ∀ s ∈ env.state_space, env.is_terminal s = false →
      greedy_action env gamma Vk s = some (polnext s))
    (hpeN : policy_evaluation env polnext gamma theta f2 = some Vn)
    (hfixN : ∀ s ∈ env.state_space, env.is_terminal s = false →
      Vn s = qval env gamma Vn s (polnext s)) :
    ∀ s ∈ env.state_space, Vk s ≤ Vn s := by
  have hT1 : ∀ s, env.is_terminal s = true → Vk s = 0 :=
    policy_evaluation_terminal_zero env polk gamma theta f1 Vk hpeK
  have hT2 : ∀ s, env.is_terminal s = true → Vn s = 0 :=
    policy_evaluation_terminal_zero env polnext gamma theta f2 Vn hpeN
  by_cases hne : env.state_space = []
  · intro s hs
    rw [hne] at hs
    exact absurd hs (List.not_mem_nil s)
  · obtain ⟨sm, hm_mem, hmin⟩ :=
      exists_min_image env.state_space (fun t => Vn t - Vk t) hne
    have hnn : 0 ≤ Vn sm - Vk sm := by
      cases hb : env.is_terminal sm with
      | true =>
        rw [hT1 sm hb, hT2 sm hb]
        norm_num
      | false =>
        obtain ⟨hall, _⟩ :=
          greedy_action_spec env gamma Vk sm (polnext sm) (himp sm hm_mem hb)
        have hle : Vk sm ≤ qval env gamma Vk sm (polnext sm) := by
          rw [hfixK sm hm_mem hb]
          exact hall (polk sm) (hlegal sm hm_mem hb)
        have hEq : Vn sm = qval env gamma Vn sm (polnext sm) :=
          hfixN sm hm_mem hb
        have htm : (env.sim_step sm (polnext sm)).1 ∈ env.state_space :=
          hclosed sm hm_mem hb (polnext sm)
            (greedy_action_mem env gamma Vk sm (polnext sm) (himp sm hm_mem hb))
        simp only [qval] at hle hEq
        have h2 : Vn sm - Vk sm ≤
            Vn (env.sim_step sm (polnext sm)).1 - Vk (env.sim_step sm (polnext sm)).1 :=
          hmin _ htm
        have h3 : gamma * (Vn sm - Vk sm) ≤
            gamma * (Vn (env.sim_step sm (polnext sm)).1 -
              Vk (env.sim_step sm (polnext sm)).1) :=
          mul_le_mul_of_nonneg_left h2 hg0
        by_contra hneg
        push_neg at hneg
        nlinarith
    intro s hs
    have := hmin s hs
    simp only at this
    linarith

/-- Counterexample to C8 as stated: on `envC8` with `gamma = 1`, `theta = 2`
and the initial policy `polC8`, policy iteration terminates after two
evaluations; the first evaluation gives `V(0) = 2` and greedily switches
state `0` to action `0`, but the second evaluation (of the all-`0` policy)
returns `V(0) = 3/2 < 2`, refuting pointwise monotone improvement. -/
theorem C8_counterexample :
    ((policy_evaluation envC8 polC8 1 2 9).map fun V => V 0) = some 2 ∧
      ((policy_evaluation envC8 polC8 1 2 9).map fun V =>
        greedy_action envC8 1 V 0) = some (some 0) ∧
      ((policy_evaluation envC8 (fun _ => 0) 1 2 9).map fun V => V 0) =
        some (3/2) ∧
      ((policy_iteration envC8 polC8 1 2 9 9).map fun p =>
        ((p.1 0, p.2 0) : Fin 2 × ℚ)) = some (0, 3/2) ∧
      ¬((2 : ℚ) ≤ 3/2) := by
  refine ⟨?_, ?_, ?_, ?_, ?_⟩ <;> with_unfolding_all decide

set_option maxRecDepth 40000 in
/-- Witness for the amended C8 on `envW`: the constant-`0` policy evaluates
exactly to `1` at state `0`, its greedy improvement plays action `1`, whose
exact evaluation is `2 ≥ 1`. -/
theorem C8_witness :
    ((policy_evaluation envW polInit0 (1/2) (1/100) 5).getD (fun _ => 0)) 0 ≤
      ((policy_evaluation envW polHead1 (1/2) (1/100) 5).getD (fun _ => 0)) 0 := by
  have hfixKp : ∀ s ∈ envW.state_space, envW.is_terminal s = false →
      ((policy_evaluation envW polInit0 (1/2) (1/100) 5).getD (fun _ => 0)) s =
        qval envW (1/2)
          ((policy_evaluation envW polInit0 (1/2) (1/100) 5).getD (fun _ => 0)) s
          (polInit0 s) := by
    with_unfolding_all decide
  have himpp : ∀ s ∈ envW.state_space, envW.is_terminal s = false →
      greedy_action envW (1/2)
          ((policy_evaluation envW polInit0 (1/2) (1/100) 5).getD (fun _ => 0)) s =
        some (polHead1 s) := by
    with_unfolding_all decide
  have hfixNp : ∀ s ∈ envW.state_space, envW.is_terminal s = false →
      ((policy_evaluation envW polHead1 (1/2) (1/100) 5).getD (fun _ => 0)) s =
        qval envW (1/2)
          ((policy_evaluation envW polHead1 (1/2) (1/100) 5).getD (fun _ => 0)) s
          (polHead1 s) := by
    with_unfolding_all decide
  cases hK : policy_evaluation envW polInit0 (1/2) (1/100) 5 with
  | none =>
    have hs : (policy_evaluation envW polInit0 (1/2) (1/100) 5).isSome = true := by
      with_unfolding_all decide
    rw [hK] at hs
    simp at hs
  | some Vk =>
    cases hN : policy_evaluation envW polHead1 (1/2) (1/100) 5 with
    | none =>
      have hs : (policy_evaluation envW polHead1 (1/2) (1/100) 5).isSome = true := by
        with_unfolding_all decide
      rw [hN] at hs
      simp at hs
    | some Vn =>
      rw [hK] at hfixKp himpp
      rw [hN] at hfixNp
      simp only [Option.getD_some] at hfixKp himpp hfixNp ⊢
      exact C8_monotone_improvement_exact envW polInit0 polHead1 (1/2) (1/100)
        5 5 Vk Vn (by norm_num) (by norm_num) (by decide) (by decide)
        hK hfixKp himpp hN hfixNp 0 (by decide)

/-! ### Lockstep of the traced and untraced solvers -/

lemma evalSweepRep_untraced [DecidableEq S] (env : DetEnv S A) (pol : S → A)
    (gamma : ℚ) (report : Bool) :
    ∀ (L : List S) (V : S → ℚ) (delta : ℚ) (tr : List (PEEvent S A)),
      ((evalSweepRep env pol gamma report L V delta tr).1,
        (evalSweepRep env pol gamma report L V delta tr).2.1) =
        evalSweep env pol gamma L V delta := by
  intro L
  induction L with
  | nil => intro V delta tr; rfl
  | cons s rest ih =>
    intro V delta tr
    cases hb : env.is_terminal s with
    | true => simpa [evalSweepRep, evalSweep, hb] using ih V delta tr
    | false =>
      simp only [evalSweepRep, evalSweep, hb, Bool.false_eq_true, if_false]
      exact ih _ _ _

lemma peLoopRep_untraced [DecidableEq S] (env : DetEnv S A) (pol : S → A)
    (gamma theta : ℚ) (report : Bool) :
    ∀ (fuel cnt : ℕ) (V : S → ℚ) (tr : List (PEEvent S A)),
      Option.map Prod.fst (peLoopRep env pol gamma theta report fuel cnt V tr) =
        peLoop env pol gamma theta fuel V := by
  intro fuel
  induction fuel with
  | zero => intro cnt V tr; rfl
  | succ fuel ih =>
    intro cnt V tr
    simp only [peLoopRep, peLoop]
    have hpair := evalSweepRep_untraced env pol gamma report env.state_space V 0
      (if report then tr ++ [PEEvent.sweepHeader cnt] else tr)
    have h1 : (evalSweepRep env pol gamma report env.state_space V 0
        (if report then tr ++ [PEEvent.sweepHeader cnt] else tr)).1 =
        (evalSweep env pol gamma env.state_space V 0).1 := congrArg Prod.fst hpair
    have h2 : (evalSweepRep env pol gamma report env.state_space V 0
        (if report then tr ++ [PEEvent.sweepHeader cnt] else tr)).2.1 =
        (evalSweep env pol gamma env.state_space V 0).2 := congrArg Prod.snd hpair
    rw [h1, h2]
    by_cases hd : (evalSweep env pol gamma env.state_space V 0).2 < theta
    · rw [if_pos hd, if_pos hd]
      rfl
    · rw [if_neg hd, if_neg hd]
      exact ih _ _ _

lemma policy_evaluation_rep_untraced [DecidableEq S] (env : DetEnv S A)
    (pol : S → A) (gamma theta : ℚ) (report : Bool) (fuel : ℕ) :
    Option.map Prod.fst (policy_evaluation_rep env pol gamma theta report fuel) =
      policy_evaluation env pol gamma theta fuel :=
  peLoopRep_untraced env pol gamma theta report fuel 1 (fun _ => 0) []

lemma piLoopRep_untraced [DecidableEq S] [DecidableEq A] (env : DetEnv S A)
    (gamma theta : ℚ) (report : Bool) (peFuel : ℕ) :
    ∀ (fuel : ℕ) (pol : S → A) (tr : List (PEEvent S A)),
      Option.map (fun x => (x.1, x.2.1))
          (piLoopRep env gamma theta report peFuel fuel pol tr) =
        piLoop env gamma theta peFuel fuel pol := by
  intro fuel
  induction fuel with
  | zero => intro pol tr; rfl
  | succ fuel ih =>
    intro pol tr
    simp only [piLoopRep, piLoop]
    have hpe := policy_evaluation_rep_untraced env pol gamma theta report peFuel
    cases hr : policy_evaluation_rep env pol gamma theta report peFuel with
    | none =>
      rw [hr] at hpe
      rw [← hpe]
      rfl
    | some r =>
      rw [hr] at hpe
      simp only [Option.map_some'] at hpe
      rw [← hpe]
      dsimp only
      by_cases hg : piGuard env gamma r.1
      · rw [if_pos hg, if_pos hg]
        by_cases hst : piStable env pol (piImprove env gamma r.1 pol)
        · rw [if_pos hst, if_pos hst]
          rfl
        · rw [if_neg hst, if_neg hst]
          exact ih _ _
      · rw [if_neg hg, if_neg hg]
        rfl

lemma policy_iteration_rep_untraced [DecidableEq S] [DecidableEq A]
    (env : DetEnv S A) (pol : S → A) (gamma theta : ℚ) (report : Bool)
    (oF pF : ℕ) :
    Option.map (fun x => (x.1, x.2.1))
        (policy_iteration_rep env pol gamma theta report oF pF) =
      policy_iteration env pol gamma theta oF pF :=
  piLoopRep_untraced env gamma theta report pF oF pol []

/-- Every member of the cached knapsack state list has non-negative
remaining capacity (the `c` ranges over `range(capacity + 1)`). -/
lemma knap_states_snd_nonneg (e : KnapsackEnv) (p : ℤ × ℤ)
    (hp : p ∈ knap_states e) : 0 ≤ p.2 := by
  unfold knap_states at hp
  obtain ⟨i2, _, hmem2⟩ := List.mem_flatMap.mp hp
  obtain ⟨c2, hc2, heq⟩ := List.mem_map.mp hmem2
  obtain ⟨a, _, ha⟩ := List.mem_flatMap.mp hc2
  rw [← congrArg Prod.snd heq]
  simp only [List.pure_def, List.mem_singleton] at ha
  subst ha
  exact Int.ofNat_nonneg a

/-! ### Claim theorems: C6, C9, C10 -/

/-- C6 (amended): `policy_evaluation` and `policy_iteration` accept a
boolean `report` flag and the flag is purely observational — the returned
`V` (and policy) are identical with the flag on or off; `value_iteration`
accepts no such flag (its parameter list is `env, gamma, theta`). -/
theorem C6_report_flag_observational [DecidableEq S] [DecidableEq A] :
    ("report" ∈ policy_evaluation_params ∧ "report" ∈ policy_iteration_params ∧
      "report" ∉ value_iteration_params) ∧
    (∀ (env : DetEnv S A) (pol : S → A) (gamma theta : ℚ) (fuel : ℕ),
      Option.map Prod.fst (policy_evaluation_rep env pol gamma theta true fuel) =
        Option.map Prod.fst
          (policy_evaluation_rep env pol gamma theta false fuel)) ∧
    (∀ (env : DetEnv S A) (pol : S → A) (gamma theta : ℚ) (oF pF : ℕ),
      Option.map (fun x => (x.1, x.2.1))
          (policy_iteration_rep env pol gamma theta true oF pF) =
        Option.map (fun x => (x.1, x.2.1))
          (policy_iteration_rep env pol gamma theta false oF pF)) := by
  refine ⟨⟨by decide, by decide, by decide⟩, ?_, ?_⟩
  · intro env pol gamma theta fuel
    rw [policy_evaluation_rep_untraced, policy_evaluation_rep_untraced]
  · intro env pol gamma theta oF pF
    rw [policy_iteration_rep_untraced, policy_iteration_rep_untraced]

/-- Counterexample to C6 as stated: `value_iteration` does not accept a
trace flag — its parameter list `def value_iteration(env, gamma=1.0,
theta=1e-8)` has no `report` entry. -/
theorem C6_counterexample : ¬("report" ∈ value_iteration_params) := by
  decide

/-- C9: `sim_step` is pure on both concrete environments: it leaves every
environment-held field unchanged (the method body assigns no attribute of
`self`), and repeated calls with the same `(state, action)` from the
resulting environment return the same `(next_state, reward)` pair — for
`InventoryEnv` on every input where it returns at all. -/
theorem C9_sim_step_pure :
    (∀ (e : KnapsackEnv) (s : ℤ × ℤ) (a : KAct),
        (knap_sim_step_method e s a).2 = e ∧
        (knap_sim_step_method ((knap_sim_step_method e s a).2) s a).1 =
          (knap_sim_step_method e s a).1) ∧
    (∀ (e : InventoryEnv) (s : ℤ × ℤ) (x : ℤ) (r : (ℤ × ℤ) × ℚ)
        (e2 : InventoryEnv),
        inv_sim_step_method e s x = some (r, e2) →
        e2 = e ∧ inv_sim_step_method e2 s x = some (r, e2)) := by
  constructor
  · intro e s a
    exact ⟨rfl, rfl⟩
  · intro e s x r e2 h
    unfold inv_sim_step_method at h
    cases hr : inv_sim_step e s x with
    | none =>
      rw [hr] at h
      exact absurd h (by simp)
    | some r0 =>
      rw [hr] at h
      simp only [Option.map_some', Option.some_inj, Prod.mk.injEq] at h
      obtain ⟨hr0, he⟩ := h
      subst hr0
      subst he
      exact ⟨rfl, by unfold inv_sim_step_method; rw [hr]; rfl⟩

/-- Witness for C9 on the one-item knapsack and one-period inventory
fixtures: the environment comes back unchanged and the repeated call
returns the same pair. -/
theorem C9_witness :
    (knap_sim_step_method knapSmall (0, 5) KAct.take).2 = knapSmall ∧
      (knap_sim_step_method ((knap_sim_step_method knapSmall (0, 5) KAct.take).2)
          (0, 5) KAct.take).1 =
        (knap_sim_step_method knapSmall (0, 5) KAct.take).1 ∧
      invSmall = invSmall ∧
      inv_sim_step_method invSmall (0, 0) 1 = some (((1, 0), -2), invSmall) := by
  have hpre : inv_sim_step_method invSmall (0, 0) 1 =
      some (((1, 0), -2), invSmall) := by
    with_unfolding_all decide
  have h2 := C9_sim_step_pure.2 invSmall (0, 0) 1 ((1, 0), -2) invSmall hpre
  exact ⟨(C9_sim_step_pure.1 knapSmall (0, 5) KAct.take).1,
    (C9_sim_step_pure.1 knapSmall (0, 5) KAct.take).2, h2.1, h2.2⟩

/-- C10: `KnapsackEnv.sim_step` performs no legality check — `"take"` on a
non-terminal `(i, c)` returns `((i+1, c - weights[i]), values[i])` without
raising even when `weights[i] > c`, and the resulting state with negative
remaining capacity lies outside `state_space()`; `InventoryEnv.sim_step`
instead raises `ValueError` whenever the action is not in
`actions(state)`. -/
theorem C10_knapsack_unchecked_inventory_checked :
    (∀ (e : KnapsackEnv) (i c : ℤ), 0 ≤ i → i < (e.n : ℤ) →
        c < e.weights.getD i.toNat 0 →
        knap_sim_step e (i, c) KAct.take =
          ((i + 1, c - e.weights.getD i.toNat 0), e.values.getD i.toNat 0) ∧
        (i + 1, c - e.weights.getD i.toNat 0) ∉ knap_states e) ∧
    (∀ (e : InventoryEnv) (s : ℤ × ℤ) (x : ℤ) (acts : List ℤ),
        inv_actions e s = some acts → x ∉ acts → inv_sim_step e s x = none) := by
  constructor
  · intro e i c _ _ hw
    refine ⟨rfl, ?_⟩
    intro hmem
    have := knap_states_snd_nonneg e _ hmem
    simp only at this
    omega
  · intro e s x acts h hx
    unfold inv_sim_step
    rw [h]
    dsimp only
    rw [if_neg hx]

/-- Witness for C10: taking item `0` (weight `2`) with remaining capacity
`1` on the one-item knapsack returns the out-of-space state `(1, -1)`
without failing, while ordering `0` (below the minimum feasible order `1`)
on the one-period inventory fails. -/
theorem C10_witness :
    knap_sim_step knapSmall (0, 1) KAct.take =
      ((0 + 1, 1 - knapSmall.weights.getD (0 : ℤ).toNat 0),
        knapSmall.values.getD (0 : ℤ).toNat 0) ∧
      ((0 : ℤ) + 1, 1 - knapSmall.weights.getD (0 : ℤ).toNat 0) ∉
        knap_states knapSmall ∧
      inv_sim_step invSmall (0, 0) 0 = none := by
  have h1 := C10_knapsack_unchecked_inventory_checked.1 knapSmall 0 1 le_rfl
    (by with_unfolding_all decide) (by with_unfolding_all decide)
  have hacts : inv_actions invSmall (0, 0) = some [1, 2, 3] := by
    with_unfolding_all decide
  have h2 := C10_knapsack_unchecked_inventory_checked.2 invSmall (0, 0) 0
    [1, 2, 3] hacts (by decide)
  exact ⟨h1.1, h1.2, h2⟩

end MaterialReforma
